import Mathlib

/-!
Shallow embedding of the core of the distributed-sync-system repository
(Raft consensus, distributed lock manager, partitioned queue with WAL,
MESI cache), together with theorems settling the specification claims.

Conventions: machine integers are `Nat`/`Int`; Python dicts whose iteration
order is irrelevant to a claim are total functions with the defaultdict
default; dicts whose insertion/iteration order matters (`OrderedDict`,
`wait_queue`, recovery temp tables) are association lists; timestamps are
`Nat` milliseconds passed explicitly as `now` parameters.
-/

namespace DistSync

/-! Raft (src/consensus/raft.py) -/

inductive NodeState
  | follower
  | candidate
  | leader
deriving DecidableEq, Repr

/-- Embeds `LogEntry` (term, command). The `index` and `timestamp` metadata
fields are carried by the source class but never read by the handlers the
claims are about, so they are omitted from the embedding. -/
structure LogEntry where
  term : Nat
  command : Nat
deriving DecidableEq, Repr

/-- Payload of an `append_entries` message. -/
structure AEMsg where
  term : Nat
  leaderId : String
  prevLogIndex : Int
  prevLogTerm : Nat
  entries : List LogEntry
  leaderCommit : Int
deriving DecidableEq, Repr

/-- Reply of `handle_append_entries`: `{"term": ..., "success": ...}`. -/
structure AEReply where
  term : Nat
  success : Bool
deriving DecidableEq, Repr

/-- Raft per-node state touched by `handle_append_entries`.
`lastHeartbeat` embeds `self.last_heartbeat`. -/
structure RaftState where
  currentTerm : Nat
  votedFor : Option String
  nodeState : NodeState
  log : List LogEntry
  commitIndex : Int
  lastHeartbeat : Nat
deriving DecidableEq, Repr

/-- Python list slice `l[:i]`, including the negative-index semantics
(`l[:-k]` drops the last `k` elements). -/
def pySliceTo (l : List LogEntry) (i : Int) : List LogEntry :=
  if 0 ≤ i then l.take i.toNat else l.take (l.length - (-i).toNat)

/-- Embeds `RaftNode.handle_append_entries` (raft.py lines 349-397).
The statement mutations happen in source order: adopt a higher term,
reset the election timer when terms match, reject stale terms, reject a
log-consistency mismatch, truncate-and-append, advance `commit_index`.
`now` stands for `datetime.now()`. -/
def handleAppendEntries (now : Nat) (st : RaftState) (m : AEMsg) : RaftState × AEReply :=
  let st1 := if st.currentTerm < m.term then
      { st with currentTerm := m.term, nodeState := .follower, votedFor := none }
    else st
  let st2 := if m.term = st1.currentTerm then
      { st1 with nodeState := .follower, lastHeartbeat := now }
    else st1
  if m.term < st2.currentTerm then
    (st2, ⟨st2.currentTerm, false⟩)
  else if 0 ≤ m.prevLogIndex ∧
      ((st2.log.length : Int) ≤ m.prevLogIndex ∨
        (st2.log.get? m.prevLogIndex.toNat).map LogEntry.term ≠ some m.prevLogTerm) then
    (st2, ⟨st2.currentTerm, false⟩)
  else
    let log2 := if m.entries.isEmpty then st2.log
                else pySliceTo st2.log (m.prevLogIndex + 1) ++ m.entries
    let ci := if st2.commitIndex < m.leaderCommit
              then min m.leaderCommit ((log2.length : Int) - 1)
              else st2.commitIndex
    ({ st2 with log := log2, commitIndex := ci }, ⟨st2.currentTerm, true⟩)

/-- Cluster majority: `(len(self.peers) + 1) // 2 + 1`. -/
def majorityOf (numPeers : Nat) : Nat := (numPeers + 1) / 2 + 1

/-- Replication count of index `n`: the leader itself plus every peer whose
`match_index` is at least `n` (`self.match_index.get(peer_id, -1) >= n`). -/
def replicatedCount (matchIndex : List Int) (n : Nat) : Nat :=
  1 + (matchIndex.filter (fun mi => (n : Int) ≤ mi)).length

/-- Indices scanned by `update_commit_index`:
`range(len(self.log) - 1, self.commit_index, -1)`, i.e. all `n` with
`commitIndex < n < len(log)`, in descending order. -/
def commitCandidates (logLen : Nat) (commitIndex : Int) : List Nat :=
  ((List.range logLen).filter (fun (n : Nat) => decide (commitIndex < (n : Int)))).reverse

/-- First index in the scan list satisfying the commit condition. -/
def commitScan (P : Nat → Bool) : List Nat → Option Nat
  | [] => none
  | n :: rest => if P n then some n else commitScan P rest

/-- Commit condition of `update_commit_index`: the entry at `n` bears the
current term and is replicated on a majority. -/
def commitCond (log : List LogEntry) (matchIndex : List Int) (currentTerm : Nat) (n : Nat) : Bool :=
  decide ((log.get? n).map LogEntry.term = some currentTerm) &&
  decide (majorityOf matchIndex.length ≤ replicatedCount matchIndex n)

/-- Embeds the scan of `RaftNode.update_commit_index` (raft.py lines 239-256),
the part after the leader guard: the first `n` (from `len(log)-1` downward,
stopping above `commit_index`) whose entry has the current term and majority
replication becomes the new commit index; otherwise it is unchanged. -/
def updateCommitIndex (log : List LogEntry) (matchIndex : List Int)
    (commitIndex : Int) (currentTerm : Nat) : Int :=
  match commitScan (commitCond log matchIndex currentTerm)
      (commitCandidates log.length commitIndex) with
  | some n => (n : Int)
  | none => commitIndex

/-- Election timeout sampler, in seconds: `random.uniform(150, 300) / 1000`
at unit sample point `u ∈ [0, 1]` (raft.py lines 57 and 132: the same
expression is used at node construction and after a failed election). -/
def electionTimeoutSample (u : ℚ) : ℚ := (150 + (300 - 150) * u) / 1000

/-- Heartbeat interval in seconds: `self.heartbeat_interval = 50 / 1000`. -/
def heartbeatInterval : ℚ := 50 / 1000

/-! Distributed lock manager (src/nodes/lock_manager.py) -/

inductive LockType
  | shared
  | exclusive
deriving DecidableEq, Repr

/-- Embeds `LockRequest` (resource, lock_type, client_id, timestamp,
optional timeout deadline); times are `Nat` milliseconds. -/
structure LockRequest where
  resource : String
  lockType : LockType
  clientId : String
  timestamp : Nat
  timeout : Option Nat
deriving DecidableEq, Repr

/-- Value of the `self.locks` dict: `{"type": ..., "holders": ..., "timestamp": ...}`. -/
structure LockInfo where
  type : LockType
  holders : Finset String
  timestamp : Nat
deriving DecidableEq

/-- Lock-manager state. `locks` and `lockTimeouts` are maps whose iteration
order never matters to the claims, so they are total functions; `waitQueue`
is an association list because the deadlock-victim scan walks the dict in
insertion order. `lockGraph` embeds `self.lock_graph` (a `defaultdict(set)`,
default `∅`). -/
structure LMState where
  locks : String → Option LockInfo
  waitQueue : List (String × List LockRequest)
  lockGraph : String → Finset String
  lockTimeouts : String → String → Option Nat

/-- Embeds `DistributedLockManager._can_acquire_lock` (lines 121-140):
free resource, re-entrant hold, or shared-with-shared. The holder list in
the failure reason string is abbreviated. -/
def canAcquireLock (locks : String → Option LockInfo) (resource : String)
    (lockType : LockType) (clientId : String) : Bool × String :=
  match locks resource with
  | none => (true, "Resource available")
  | some current =>
    if clientId ∈ current.holders then (true, "Client already holds lock")
    else if lockType = .shared ∧ current.type = .shared then (true, "Compatible lock type")
    else (false, "Resource locked")

/-- Removes every wait entry of `clientId` from `waitQueue[resource]`
(the list comprehension in `_apply_lock_acquisition`). -/
def wqRemoveClient (wq : List (String × List LockRequest)) (resource clientId : String) :
    List (String × List LockRequest) :=
  wq.map (fun p => if p.1 = resource then (p.1, p.2.filter (fun q => q.clientId ≠ clientId)) else p)

/-- Embeds `DistributedLockManager._apply_lock_acquisition` (lines 197-217):
create the lock entry with the request's type/timestamp, or add the client
to the existing holders set; record the optional timeout; drop the client's
entries from the resource's wait queue. -/
def applyLockAcquisition (st : LMState) (req : LockRequest) : LMState :=
  let locks' := fun r =>
    if r = req.resource then
      some (match st.locks req.resource with
        | none => ⟨req.lockType, {req.clientId}, req.timestamp⟩
        | some l => ⟨l.type, insert req.clientId l.holders, l.timestamp⟩)
    else st.locks r
  let timeouts' := match req.timeout with
    | some t => fun r c =>
        if r = req.resource ∧ c = req.clientId then some t else st.lockTimeouts r c
    | none => st.lockTimeouts
  { st with locks := locks', lockTimeouts := timeouts',
            waitQueue := wqRemoveClient st.waitQueue req.resource req.clientId }

/-- Embeds `DistributedLockManager._remove_from_lock_graph` (lines 310-315):
pop the client's own edge set and discard it from every other client's set. -/
def removeFromLockGraph (g : String → Finset String) (clientId : String) :
    String → Finset String :=
  fun x => if x = clientId then ∅ else (g x).erase clientId

/-- Embeds `DistributedLockManager._apply_lock_release` (lines 219-232):
discard the client from the holders, drop its timeout, delete the entry when
the holders set becomes empty, and clear the client's wait-for edges. The
asynchronous `process_wait_queue` task it spawns issues further replicated
commands and is modelled as such, not here. -/
def applyLockRelease (st : LMState) (resource clientId : String) : LMState :=
  match st.locks resource with
  | none => st
  | some l =>
    let holders' := l.holders.erase clientId
    let locks' := fun r =>
      if r = resource then
        (if holders' = ∅ then none else some ⟨l.type, holders', l.timestamp⟩)
      else st.locks r
    let timeouts' := fun r c =>
      if r = resource ∧ c = clientId then none else st.lockTimeouts r c
    { st with locks := locks', lockTimeouts := timeouts',
              lockGraph := removeFromLockGraph st.lockGraph clientId }

/-- Result object returned by the leader-side lock operations. -/
structure LockResult where
  success : Bool
  message : String
deriving DecidableEq, Repr

/-- Embeds the leader-side `DistributedLockManager.release_lock`
(lines 142-182), after the leader guard: unknown resource and non-holder
requests fail without touching any state; otherwise the command is
replicated (`replicateOk` abstracts the outcome of `replicate_command`)
and, once committed, applied by the apply loop. -/
def releaseLock (st : LMState) (resource clientId : String) (replicateOk : Bool) :
    LockResult × LMState :=
  match st.locks resource with
  | none => (⟨false, "Lock not found"⟩, st)
  | some l =>
    if clientId ∈ l.holders then
      if replicateOk then (⟨true, "Lock released"⟩, applyLockRelease st resource clientId)
      else (⟨false, "Failed to replicate lock release"⟩, st)
    else (⟨false, "Client does not hold this lock"⟩, st)

/-- Replicated lock commands (`acquire_lock` / `release_lock`). -/
inductive LockCmd
  | acquire (req : LockRequest)
  | release (resource clientId : String)
deriving DecidableEq, Repr

/-- One admitted command applied to the state machine: an acquire takes
effect only when the leader-side compatibility check admits it (otherwise
the leader queues the request instead of replicating, so the state machine
never sees it); releases are applied unconditionally, `_apply_lock_release`
being graceful on unheld locks. -/
def lockStep (st : LMState) (c : LockCmd) : LMState :=
  match c with
  | .acquire req =>
      if (canAcquireLock st.locks req.resource req.lockType req.clientId).1
      then applyLockAcquisition st req else st
  | .release r c => applyLockRelease st r c

/-- Runs a command trace from a state. -/
def lockExec (st : LMState) (tr : List LockCmd) : LMState := tr.foldl lockStep st

/-- Fresh lock-manager state (empty dicts). -/
def initLMState : LMState := ⟨fun _ => none, [], fun _ => ∅, fun _ _ => none⟩

/-- One step of the victim scan of `resolve_deadlock` (lines 330-335):
keep the wait entry of a cycle member with the strictly latest timestamp
seen so far. -/
def victimStep (cycle : List String) (acc : Option (String × Nat)) (w : LockRequest) :
    Option (String × Nat) :=
  if w.clientId ∈ cycle then
    match acc with
    | none => some (w.clientId, w.timestamp)
    | some (v, t) => if t < w.timestamp then some (w.clientId, w.timestamp) else some (v, t)
  else acc

/-- Victim scan over the whole wait queue, walking the dict entries in
insertion order and each queue front to back. -/
def victimScan (cycle : List String) (wq : List (String × List LockRequest)) :
    Option (String × Nat) :=
  ((wq.map Prod.snd).flatten).foldl (victimStep cycle) none

/-- Embeds `DistributedLockManager.resolve_deadlock` (lines 317-355):
select the victim by the scan, remove all of its wait entries from every
queue, clear its wait-for edges; the `locks` map is untouched. Returns the
victim (when found) together with the new state. -/
def resolveDeadlock (cycle : List String) (st : LMState) : Option String × LMState :=
  if cycle.isEmpty then (none, st)
  else
    match victimScan cycle st.waitQueue with
    | none => (none, st)
    | some (v, _) =>
        (some v,
         { st with
             waitQueue := st.waitQueue.map
               (fun p => (p.1, p.2.filter (fun q => q.clientId ≠ v))),
             lockGraph := removeFromLockGraph st.lockGraph v })

/-- Spec-side victim rule, written from the claim's words (not from the
source): "the client in the cycle whose earliest wait-queue entry has the
latest requestedAt timestamp". For each cycle member take the minimum
timestamp over that client's wait entries, then pick the client whose
minimum is strictly latest (first such client on ties). -/
def specEarliestEntry (wq : List (String × List LockRequest)) (c : String) : Option Nat :=
  ((((wq.map Prod.snd).flatten).filter (fun w => w.clientId = c)).map LockRequest.timestamp).min?

/-- Spec-side victim selection for the claimed rule (see `specEarliestEntry`). -/
def specVictim (cycle : List String) (wq : List (String × List LockRequest)) :
    Option String :=
  ((cycle.filterMap (fun c => (specEarliestEntry wq c).map (fun t => (c, t)))).foldl
    (fun acc p =>
      match acc with
      | none => some p
      | some q => if q.2 < p.2 then some p else some q) none).map Prod.fst

/-! Partitioned queue with WAL (src/nodes/queue_node.py) -/

/-- Embeds the base message dict built by `enqueue`:
`{"id", "queue", "data", "timestamp"}`. -/
structure QMessage where
  id : String
  queue : String
  data : Nat
  timestamp : Nat
deriving DecidableEq, Repr

/-- Message as stored in `in_flight` and returned by `_local_dequeue`:
the base message with `delivery_time` and `visibility_timeout` added. -/
structure InFlightEntry where
  msg : QMessage
  deliveryTime : Nat
  visibilityTimeout : Nat
deriving DecidableEq, Repr

/-- Records of the write-ahead log:
`{"type": "ENQUEUE", "payload": msg}` and `{"type": "ACK", "msg_id": id}`. -/
inductive WalRecord
  | enqueueRec (payload : QMessage)
  | ackRec (msgId : String)
deriving DecidableEq, Repr

/-- Queue-shard state of one owner node. `wal` abstracts the concatenation
of the on-disk log and the flush buffer, in append order. -/
structure QueueState where
  queues : String → List QMessage
  inFlight : String → Option InFlightEntry
  messageIdCounter : Nat
  wal : List WalRecord

/-- Message-id scheme: `f"{self.node_id}-{self.message_id_counter}"`. -/
def mkMsgId (nodeId : String) (n : Nat) : String := nodeId ++ "-" ++ toString n

/-- Visibility timeout: `timedelta(seconds=30)`, in milliseconds. -/
def visibilityTimeoutMs : Nat := 30000

/-- Embeds `DistributedQueue._local_enqueue` (lines 167-170): append the
message to its queue's FIFO and an `ENQUEUE` record to the WAL. -/
def localEnqueue (st : QueueState) (m : QMessage) : QueueState :=
  { st with
      queues := fun q => if q = m.queue then st.queues m.queue ++ [m] else st.queues q,
      wal := st.wal ++ [.enqueueRec m] }

/-- Embeds the owner-local immediate-mode path of `DistributedQueue.enqueue`
(lines 134-165): bump the counter, allocate the id, build the message and
enqueue it locally. Returns the allocated id. -/
def enqueueLocal (nodeId : String) (st : QueueState) (queueName : String)
    (payload : Nat) (now : Nat) : String × QueueState :=
  let counter := st.messageIdCounter + 1
  let id := mkMsgId nodeId counter
  (id, localEnqueue { st with messageIdCounter := counter }
        ⟨id, queueName, payload, now⟩)

/-- Embeds `DistributedQueue._local_dequeue` (lines 187-198): pop the head
of the FIFO (or return nothing), stamp the delivery fields, move the message
into `in_flight`. The WAL is not written. -/
def localDequeue (st : QueueState) (queueName : String) (now : Nat) :
    Option InFlightEntry × QueueState :=
  match st.queues queueName with
  | [] => (none, st)
  | m :: rest =>
    let entry : InFlightEntry := ⟨m, now, now + visibilityTimeoutMs⟩
    (some entry,
     { st with
         queues := fun q => if q = queueName then rest else st.queues q,
         inFlight := fun i => if i = m.id then some entry else st.inFlight i })

/-- Embeds `DistributedQueue.ack_message` (lines 200-207): drop a known id
from `in_flight` and append an `ACK` record to the WAL; an unknown id
returns `false` and changes nothing. -/
def ackMessage (st : QueueState) (msgId : String) : Bool × QueueState :=
  match st.inFlight msgId with
  | some _ =>
      (true,
       { st with inFlight := fun i => if i = msgId then none else st.inFlight i,
                 wal := st.wal ++ [.ackRec msgId] })
  | none => (false, st)

/-- Python-dict assignment `d[k] = v` on an insertion-ordered association
list: replace in place when the key is present, append otherwise. -/
def adUpdate {β : Type} (l : List (String × β)) (k : String) (v : β) :
    List (String × β) :=
  if l.any (fun p => p.1 = k) then l.map (fun p => if p.1 = k then (k, v) else p)
  else l ++ [(k, v)]

/-- Python-dict lookup with the `defaultdict` default. -/
def adLookup {β : Type} (dflt : β) (l : List (String × β)) (k : String) : β :=
  ((l.find? (fun p => p.1 = k)).map Prod.snd).getD dflt

/-- Recovery temp table `temp_queues`: insertion-ordered queue → (id → msg). -/
def TempQueues : Type := List (String × List (String × QMessage))

/-- `temp_queues[msg['queue']][msg['id']] = msg` on the two-level table. -/
def tempInsert (t : TempQueues) (m : QMessage) : TempQueues :=
  adUpdate t m.queue (adUpdate (adLookup [] t m.queue) m.id m)

/-- Sequential WAL replay loop of `recover_from_log` (lines 264-275):
record `ENQUEUE` payloads in the temp table and `ACK`ed ids in the set. -/
def recoverReplay (t : TempQueues) (acked : List String) :
    List WalRecord → TempQueues × List String
  | [] => (t, acked)
  | .enqueueRec m :: rest => recoverReplay (tempInsert t m) acked rest
  | .ackRec i :: rest => recoverReplay t (acked ++ [i]) rest

/-- Embeds `DistributedQueue.recover_from_log` (lines 259-287) run on a
fresh node: replay the WAL, then for each queue append, in table order, the
messages whose id was never `ACK`ed; a missing file (`wal = none`) leaves
the fresh empty state. `in_flight` is never touched. -/
def recoverFromLog (wal : Option (List WalRecord)) : QueueState :=
  match wal with
  | none => ⟨fun _ => [], fun _ => none, 0, []⟩
  | some w =>
    let (temp, acked) := recoverReplay [] [] w
    { queues := fun q =>
        ((adLookup [] temp q).filter (fun p => decide (p.1 ∈ acked) = false)).map Prod.snd,
      inFlight := fun _ => none,
      messageIdCounter := 0,
      wal := w }

/-- Messages of the `ENQUEUE` records of a WAL, in order. -/
def walEnqueues (w : List WalRecord) : List QMessage :=
  w.filterMap (fun r => match r with | .enqueueRec m => some m | .ackRec _ => none)

/-- Ids of the `ACK` records of a WAL. -/
def ackedIds (w : List WalRecord) : List String :=
  w.filterMap (fun r => match r with | .enqueueRec _ => none | .ackRec i => some i)

/-! MESI cache (src/nodes/cache_node.py) -/

inductive MESIState
  | modified
  | exclusive
  | shared
  | invalid
deriving DecidableEq, Repr

/-- Embeds `CacheLine` (data, state). The `last_access`/`created_at`
timestamps are never read by `cache_data` and are omitted. -/
structure CacheLine where
  data : Nat
  state : MESIState
deriving DecidableEq, Repr

/-- Cache-node state relevant to `cache_data`: the LRU-ordered map
(`OrderedDict`, head = least recently used), the fixed capacity, the
eviction counter, and the backing memory written by
`write_back_to_memory`. -/
structure CacheNodeState where
  cache : List (String × CacheLine)
  capacity : Nat
  evictions : Nat
  memory : String → Option Nat

/-- `OrderedDict` assignment `self.cache[key] = line`: an existing key keeps
its position, a new key goes to the most-recently-used end. -/
def odAssign (od : List (String × CacheLine)) (k : String) (v : CacheLine) :
    List (String × CacheLine) :=
  if od.any (fun p => p.1 = k) then od.map (fun p => if p.1 = k then (k, v) else p)
  else od ++ [(k, v)]

/-- Embeds `MESICache.cache_data` (lines 86-97): when the map has reached
capacity, pop the LRU head (`popitem(last=False)`), write it back to memory
if it was Modified, and count the eviction; then store the new line.
Returns the evicted pair, if any. (CPython would raise `KeyError` from
`popitem` in the unreachable case of a full-by-capacity-zero empty dict;
the embedding then inserts without evicting.) -/
def cacheData (st : CacheNodeState) (key : String) (data : Nat) (state : MESIState) :
    CacheNodeState × Option (String × CacheLine) :=
  if st.capacity ≤ st.cache.length then
    match st.cache with
    | [] => ({ st with cache := odAssign [] key ⟨data, state⟩ }, none)
    | (k0, l0) :: rest =>
      let mem' := if l0.state = .modified
                  then fun k => if k = k0 then some l0.data else st.memory k
                  else st.memory
      ({ st with cache := odAssign rest key ⟨data, state⟩,
                 memory := mem',
                 evictions := st.evictions + 1 },
       some (k0, l0))
  else ({ st with cache := odAssign st.cache key ⟨data, state⟩ }, none)

/-! Concrete instances used by counterexamples and witnesses -/

/-- Concrete follower state for the C1 counterexample: three entries of
term 1, `commit_index = 1`. -/
def aeSt0 : RaftState := ⟨1, none, .follower, [⟨1, 0⟩, ⟨1, 1⟩, ⟨1, 2⟩], 1, 0⟩

/-- Heartbeat from the leader carrying `leader_commit = 0`, below the
follower's `commit_index`. -/
def aeMsg0 : AEMsg := ⟨1, "n1", -1, 0, [], 0⟩

/-- Full cache (capacity 1) already holding key `"k"`: inserting `"k"`
again is a replacement, yet the code evicts. -/
def cacheSt0 : CacheNodeState := ⟨[("k", ⟨7, .invalid⟩)], 1, 0, fun _ => none⟩

/-- Fresh empty queue-shard state. -/
def qSt0 : QueueState := ⟨fun _ => [], fun _ => none, 0, []⟩

/-- Lock state where client `"A"` holds `"r"` in Shared mode. -/
def lmSt10 : LMState :=
  ⟨fun r => if r = "r" then some ⟨.shared, {"A"}, 3⟩ else none, [], fun _ => ∅, fun _ _ => none⟩

/-- Exclusive re-request for `"r"` by the Shared holder `"A"`. -/
def req10 : LockRequest := ⟨"r", .exclusive, "A", 10, none⟩

/-- Wait-queue state for the C5 counterexample: client `"A"` has entries at
timestamps 10 and 1 (so its earliest entry is at 1), client `"B"` one entry
at 5. The claim's rule (latest of the per-client earliest entries) picks
`"B"`; the code's scan (latest entry overall) picks `"A"`. -/
def lmSt5 : LMState :=
  ⟨fun _ => none,
   [("r1", [⟨"r1", .exclusive, "A", 10, none⟩]),
    ("r2", [⟨"r2", .exclusive, "A", 1, none⟩]),
    ("r3", [⟨"r3", .exclusive, "B", 5, none⟩])],
   fun _ => ∅, fun _ _ => none⟩

/-- WAL with two ENQUEUE records carrying the same id into the same queue
(ids repeat across node restarts because the id counter is not recovered):
the recovery dict keeps one entry, with the later payload. -/
def wal4 : List WalRecord :=
  [.enqueueRec ⟨"a", "q", 1, 0⟩, .enqueueRec ⟨"a", "q", 2, 0⟩]

/-- WAL of scenario S4: three ENQUEUEs with distinct ids, one ACK. -/
def wal4w : List WalRecord :=
  [.enqueueRec ⟨"x1", "q", 1, 0⟩, .enqueueRec ⟨"x2", "q", 2, 0⟩,
   .enqueueRec ⟨"x3", "q", 3, 0⟩, .ackRec "x2"]

/-- Admitted Shared request: the trace contains an `acquire_lock` command
for resource `r` with mode Shared by client `c` that passed the
compatibility check against the state at its position. -/
def sharedAdmitted (tr : List LockCmd) (r c : String) : Prop :=
  ∃ (p s : List LockCmd) (req : LockRequest),
    tr = p ++ LockCmd.acquire req :: s ∧ req.resource = r ∧
    req.lockType = .shared ∧ req.clientId = c ∧
    (canAcquireLock (lockExec initLMState p).locks r .shared c).1 = true

/-! Theorems -/

/-- C8 counterexample: the claim says the election timeout is drawn from
50-100 ms and the heartbeat interval is 15 ms; the code draws
`random.uniform(150, 300) / 1000` and sets `heartbeat_interval = 50/1000`,
so the heartbeat is not 15 ms and the top of the election-timeout range
(sample point `u = 1`) is 300 ms, outside 50-100 ms. -/
theorem C8_counterexample :
    heartbeatInterval ≠ 15 / 1000 ∧
    electionTimeoutSample 1 = 300 / 1000 ∧ ¬ electionTimeoutSample 1 ≤ 100 / 1000 := by
  refine ⟨?_, ?_, ?_⟩ <;> norm_num [heartbeatInterval, electionTimeoutSample]

/-- C8 (amended): every node's election timeout is drawn uniformly from the
interval 150 to 300 milliseconds (the same sampler is used at construction
and after each failed election), and the leader's heartbeat interval is
50 milliseconds. -/
theorem C8_timers (u : ℚ) (h0 : 0 ≤ u) (h1 : u ≤ 1) :
    150 / 1000 ≤ electionTimeoutSample u ∧ electionTimeoutSample u ≤ 300 / 1000 ∧
    heartbeatInterval = 50 / 1000 := by
  unfold electionTimeoutSample heartbeatInterval
  refine ⟨by nlinarith, by nlinarith, rfl⟩

/-- C8 witness: the sampler at `u = 1/2` lands in the 150-300 ms range. -/
theorem C8_timers_witness :
    (0 : ℚ) ≤ 1 / 2 ∧ (1 : ℚ) / 2 ≤ 1 ∧
    (150 / 1000 ≤ electionTimeoutSample (1 / 2) ∧
     electionTimeoutSample (1 / 2) ≤ 300 / 1000 ∧ heartbeatInterval = 50 / 1000) :=
  ⟨by norm_num, by norm_num, C8_timers (1 / 2) (by norm_num) (by norm_num)⟩

/-- C1 counterexample: on `aeSt0`/`aeMsg0` the handler accepts
(`success = true`) but leaves `commit_index` at 1, whereas the claim's
unconditional `commitIndex := min(leaderCommit, lastLogIndex)` would set
it to `min 0 2 = 0`: the code updates `commit_index` only when
`leader_commit > commit_index`. -/
theorem C1_counterexample :
    (handleAppendEntries 5 aeSt0 aeMsg0).2.success = true ∧
    (handleAppendEntries 5 aeSt0 aeMsg0).1.commitIndex = 1 ∧
    min aeMsg0.leaderCommit
      (((handleAppendEntries 5 aeSt0 aeMsg0).1.log.length : Int) - 1) = 0 ∧
    (1 : Int) ≠ 0 := by decide

/-- C1 (amended): for every AppendEntries request with
`prevLogIndex ≥ -1` (as every leader-generated request has): a request
whose term is below `currentTerm` is answered `(currentTerm, success=false)`
with log and commit index unchanged; if `prevLogIndex ≥ 0` and the log has
no entry there or that entry's term differs from `prevLogTerm`, the reply
is `success=false` and the log is unchanged; otherwise the handler replaces
the suffix starting at `prevLogIndex+1` by the given entries (when any are
given), sets `commitIndex := min(leaderCommit, lastLogIndex)` *only when
`leaderCommit > commitIndex`* (otherwise the commit index is unchanged),
resets the heartbeat clock, and replies `(term, success=true)`. -/
theorem C1_appendEntries (now : Nat) (st : RaftState) (m : AEMsg)
    (hprev : -1 ≤ m.prevLogIndex) :
    (m.term < st.currentTerm →
      (handleAppendEntries now st m).2 = ⟨st.currentTerm, false⟩ ∧
      (handleAppendEntries now st m).1.log = st.log ∧
      (handleAppendEntries now st m).1.commitIndex = st.commitIndex) ∧
    (st.currentTerm ≤ m.term → 0 ≤ m.prevLogIndex →
      ((st.log.length : Int) ≤ m.prevLogIndex ∨
        (st.log.get? m.prevLogIndex.toNat).map LogEntry.term ≠ some m.prevLogTerm) →
      (handleAppendEntries now st m).2.success = false ∧
      (handleAppendEntries now st m).1.log = st.log) ∧
    (st.currentTerm ≤ m.term →
      (0 ≤ m.prevLogIndex →
        m.prevLogIndex < (st.log.length : Int) ∧
        (st.log.get? m.prevLogIndex.toNat).map LogEntry.term = some m.prevLogTerm) →
      (handleAppendEntries now st m).2 = ⟨m.term, true⟩ ∧
      (handleAppendEntries now st m).1.log =
        (if m.entries.isEmpty then st.log
         else st.log.take (m.prevLogIndex + 1).toNat ++ m.entries) ∧
      (handleAppendEntries now st m).1.commitIndex =
        (if st.commitIndex < m.leaderCommit
         then min m.leaderCommit
           (((handleAppendEntries now st m).1.log.length : Int) - 1)
         else st.commitIndex) ∧
      (handleAppendEntries now st m).1.lastHeartbeat = now ∧
      (handleAppendEntries now st m).1.nodeState = .follower) := by
  refine ⟨fun h => ?_, fun h hp hbad => ?_, fun h hok => ?_⟩
  · simp only [handleAppendEntries]
    split_ifs <;>
      first
        | exact ⟨rfl, rfl, rfl⟩
        | (exfalso; try dsimp only at *; omega)
  · simp only [handleAppendEntries]
    rcases Nat.lt_or_ge st.currentTerm m.term with h1 | h1
    · rw [if_pos h1]
      dsimp only
      rw [if_pos rfl]
      dsimp only
      rw [if_neg (lt_irrefl m.term), if_pos (And.intro hp hbad)]
      exact ⟨rfl, rfl⟩
    · have h1' : ¬ st.currentTerm < m.term := by omega
      have heq : m.term = st.currentTerm := by omega
      rw [if_neg h1', if_pos heq]
      dsimp only
      rw [if_neg (by omega : ¬ m.term < st.currentTerm), if_pos (And.intro hp hbad)]
      exact ⟨rfl, rfl⟩
  · have hnotbad : ¬ (0 ≤ m.prevLogIndex ∧
        ((st.log.length : Int) ≤ m.prevLogIndex ∨
          (st.log.get? m.prevLogIndex.toNat).map LogEntry.term ≠ some m.prevLogTerm)) := by
      rintro ⟨hp0, hbad⟩
      rcases hok hp0 with ⟨hlt, hterm⟩
      rcases hbad with hlen | hne
      · omega
      · exact hne hterm
    have hlog : pySliceTo st.log (m.prevLogIndex + 1) =
        st.log.take (m.prevLogIndex + 1).toNat := by
      unfold pySliceTo
      rw [if_pos (by omega : (0 : Int) ≤ m.prevLogIndex + 1)]
    simp only [handleAppendEntries]
    rcases Nat.lt_or_ge st.currentTerm m.term with h1 | h1
    · rw [if_pos h1]
      dsimp only
      rw [if_pos rfl]
      dsimp only
      rw [if_neg (lt_irrefl m.term), if_neg hnotbad, hlog]
      exact ⟨rfl, rfl, rfl, rfl, rfl⟩
    · have h1' : ¬ st.currentTerm < m.term := by omega
      have heq : m.term = st.currentTerm := by omega
      rw [if_neg h1', if_pos heq]
      dsimp only
      rw [if_neg (by omega : ¬ m.term < st.currentTerm), if_neg hnotbad, hlog]
      rw [heq]
      exact ⟨rfl, rfl, rfl, rfl, rfl⟩

/-- C1 witness: a request of term 2 at a term-1 follower with a matching
prefix check appends one entry and advances the commit index. -/
theorem C1_appendEntries_witness :
    (-1 : Int) ≤ (0 : Int) ∧
    ((1 : Nat) ≤ 2 ∧
     ((0 : Int) ≤ 0 →
       (0 : Int) < (([⟨1, 0⟩] : List LogEntry).length : Int) ∧
       (([⟨1, 0⟩] : List LogEntry).get? (Int.toNat 0)).map LogEntry.term = some 1)) ∧
    ((handleAppendEntries 7 ⟨1, none, .follower, [⟨1, 0⟩], -1, 0⟩
        ⟨2, "n0", 0, 1, [⟨2, 5⟩], 0⟩).2 = ⟨2, true⟩) := by
  refine ⟨by norm_num, ⟨by norm_num, fun _ => by decide⟩, ?_⟩
  exact ((C1_appendEntries 7 ⟨1, none, .follower, [⟨1, 0⟩], -1, 0⟩
      ⟨2, "n0", 0, 1, [⟨2, 5⟩], 0⟩ (by norm_num)).2.2 (by norm_num)
      (fun _ => by decide)).1


/-- C6 counterexample: with capacity 1 and key `"k"` already cached,
`cache_data("k", ...)` is a replacement, yet the code pops the LRU head
(which is `"k"` itself) and counts an eviction, because the guard is
`len(self.cache) >= self.capacity` regardless of key presence; the claim
says a replacing insertion never evicts. -/
theorem C6_counterexample :
    cacheSt0.cache.any (fun p => p.1 = "k") = true ∧
    (cacheData cacheSt0 "k" 5 .shared).2 = some ("k", ⟨7, .invalid⟩) ∧
    (cacheData cacheSt0 "k" 5 .shared).1.evictions = 1 := by decide

/-- C6 (amended): `cache_data` evicts exactly when the map has reached
capacity at insertion time, whether or not the key is already present.
When it evicts, the victim is the LRU head, it is written back to backing
memory if and only if its state is Modified, and the eviction counter is
incremented; otherwise nothing is evicted, the counter and memory are
untouched; in both cases the new line is stored (an existing key keeps its
position, a new key goes to the most-recently-used end). -/
theorem C6_eviction (st : CacheNodeState) (key : String) (data : Nat) (state : MESIState) :
    (st.cache.length < st.capacity →
      (cacheData st key data state).2 = none ∧
      (cacheData st key data state).1.evictions = st.evictions ∧
      (cacheData st key data state).1.memory = st.memory ∧
      (cacheData st key data state).1.cache = odAssign st.cache key ⟨data, state⟩) ∧
    (st.capacity ≤ st.cache.length →
      ∀ k0 l0 rest, st.cache = (k0, l0) :: rest →
        (cacheData st key data state).2 = some (k0, l0) ∧
        (cacheData st key data state).1.evictions = st.evictions + 1 ∧
        (cacheData st key data state).1.cache = odAssign rest key ⟨data, state⟩ ∧
        (cacheData st key data state).1.memory =
          (if l0.state = .modified
           then fun k => if k = k0 then some l0.data else st.memory k
           else st.memory)) := by
  constructor
  · intro hlt
    have hc : ¬ st.capacity ≤ st.cache.length := by omega
    refine ⟨?_, ?_, ?_, ?_⟩ <;> simp only [cacheData, if_neg hc]
  · intro hge k0 l0 rest hcache
    refine ⟨?_, ?_, ?_, ?_⟩ <;>
      (simp only [cacheData]; rw [hcache] at hge; rw [hcache]; simp only [if_pos hge])

/-- C6 witness: inserting into an empty capacity-1 cache evicts nothing. -/
theorem C6_eviction_witness :
    (cacheData ⟨[], 1, 0, fun _ => none⟩ "k" 5 MESIState.shared).2 = none :=
  ((C6_eviction ⟨[], 1, 0, fun _ => none⟩ "k" 5 MESIState.shared).1 (by decide)).1

/-- C7: on an owner node with `queues[q]` empty, enqueue of a message, a
dequeue, then an ack of the returned id returns the message (with the
delivery fields added) and restores both the FIFO map and the in-flight
map to their prior values. -/
theorem C7_roundTrip (nodeId : String) (st : QueueState) (q : String)
    (payload now1 now2 : Nat)
    (hq : st.queues q = [])
    (hf : st.inFlight (mkMsgId nodeId (st.messageIdCounter + 1)) = none) :
    (localDequeue (enqueueLocal nodeId st q payload now1).2 q now2).1 =
      some ⟨⟨mkMsgId nodeId (st.messageIdCounter + 1), q, payload, now1⟩,
            now2, now2 + visibilityTimeoutMs⟩ ∧
    (ackMessage (localDequeue (enqueueLocal nodeId st q payload now1).2 q now2).2
        (enqueueLocal nodeId st q payload now1).1).1 = true ∧
    (ackMessage (localDequeue (enqueueLocal nodeId st q payload now1).2 q now2).2
        (enqueueLocal nodeId st q payload now1).1).2.queues = st.queues ∧
    (ackMessage (localDequeue (enqueueLocal nodeId st q payload now1).2 q now2).2
        (enqueueLocal nodeId st q payload now1).1).2.inFlight = st.inFlight := by
  have h1 : (enqueueLocal nodeId st q payload now1).2.queues q =
      [⟨mkMsgId nodeId (st.messageIdCounter + 1), q, payload, now1⟩] := by
    simp [enqueueLocal, localEnqueue, hq]
  simp only [enqueueLocal, localEnqueue] at h1 ⊢
  simp only [localDequeue, h1]
  refine ⟨trivial, ?_, ?_, ?_⟩ <;> simp only [ackMessage, if_pos rfl, if_true]
  · funext q1
    by_cases hq1 : q1 = q
    · subst hq1
      simp [hq]
    · simp [hq1]
  · funext i
    by_cases hi : i = mkMsgId nodeId (st.messageIdCounter + 1)
    · subst hi
      simp [hf]
    · simp [hi]

/-- C7 witness: the round trip on a fresh shard. -/
theorem C7_roundTrip_witness :
    (localDequeue (enqueueLocal "n" qSt0 "q" 9 1).2 "q" 2).1 =
      some ⟨⟨mkMsgId "n" (qSt0.messageIdCounter + 1), "q", 9, 1⟩,
            2, 2 + visibilityTimeoutMs⟩ ∧
    (ackMessage (localDequeue (enqueueLocal "n" qSt0 "q" 9 1).2 "q" 2).2
        (enqueueLocal "n" qSt0 "q" 9 1).1).1 = true ∧
    (ackMessage (localDequeue (enqueueLocal "n" qSt0 "q" 9 1).2 "q" 2).2
        (enqueueLocal "n" qSt0 "q" 9 1).1).2.queues = qSt0.queues ∧
    (ackMessage (localDequeue (enqueueLocal "n" qSt0 "q" 9 1).2 "q" 2).2
        (enqueueLocal "n" qSt0 "q" 9 1).1).2.inFlight = qSt0.inFlight :=
  C7_roundTrip "n" qSt0 "q" 9 1 2 rfl rfl

/-- Scan helper: a failed scan means no index satisfied the condition. -/
lemma commitScan_eq_none {P : Nat → Bool} {l : List Nat} (h : commitScan P l = none) :
    ∀ n ∈ l, P n = false := by
  induction l with
  | nil => intro n hn; cases hn
  | cons a t ih =>
    intro n hn
    by_cases ha : P a = true
    · simp [commitScan, ha] at h
    · rcases List.mem_cons.mp hn with rfl | ht
      · simpa using ha
      · exact ih (by simpa [commitScan, ha] using h) n ht

lemma commitScan_eq_some {P : Nat → Bool} {l : List Nat} {n : Nat}
    (h : commitScan P l = some n) : n ∈ l ∧ P n = true := by
  induction l with
  | nil => simp [commitScan] at h
  | cons a t ih =>
    by_cases ha : P a = true
    · simp only [commitScan, ha, if_true, Option.some.injEq] at h
      subst h
      exact ⟨List.mem_cons_self a t, ha⟩
    · simp only [commitScan, ha, if_false, Bool.false_eq_true] at h
      rcases ih (by simpa [commitScan, ha] using h) with ⟨hm, hp⟩
      exact ⟨List.mem_cons_of_mem a hm, hp⟩

lemma commitScan_max {P : Nat → Bool} {l : List Nat} {n : Nat}
    (hp : l.Pairwise (· > ·)) (h : commitScan P l = some n) :
    ∀ m ∈ l, n < m → P m = false := by
  induction l with
  | nil => intro m hm; cases hm
  | cons a t ih =>
    intro m hm hnm
    rcases List.pairwise_cons.mp hp with ⟨ha, ht⟩
    by_cases hpa : P a = true
    · simp only [commitScan, hpa, if_true, Option.some.injEq] at h
      subst h
      rcases List.mem_cons.mp hm with rfl | hmt
      · omega
      · exact absurd (ha m hmt) (by omega)
    · rcases List.mem_cons.mp hm with rfl | hmt
      · simpa using hpa
      · exact ih ht (by simpa [commitScan, hpa] using h) m hmt hnm

/-- Scan helper: a successful scan returns a member satisfying the condition. -/
lemma mem_commitCandidates {len : Nat} {ci : Int} {m : Nat} :
    m ∈ commitCandidates len ci ↔ m < len ∧ ci < (m : Int) := by
  simp [commitCandidates, List.mem_reverse, List.mem_filter, List.mem_range]

lemma commitCandidates_pairwise (len : Nat) (ci : Int) :
    (commitCandidates len ci).Pairwise (· > ·) := by
  unfold commitCandidates
  rw [List.pairwise_reverse]
  exact (List.pairwise_lt_range len).filter _

theorem C2_commitAdvance (log : List LogEntry) (matchIndex : List Int)
    (commitIndex : Int) (currentTerm : Nat) :
    (updateCommitIndex log matchIndex commitIndex currentTerm = commitIndex ∧
      ∀ n : Nat, commitIndex < (n : Int) → n < log.length →
        ¬((log.get? n).map LogEntry.term = some currentTerm ∧
          majorityOf matchIndex.length ≤ replicatedCount matchIndex n))
    ∨ (∃ n : Nat,
        updateCommitIndex log matchIndex commitIndex currentTerm = (n : Int) ∧
        commitIndex < (n : Int) ∧ n < log.length ∧
        (log.get? n).map LogEntry.term = some currentTerm ∧
        majorityOf matchIndex.length ≤ replicatedCount matchIndex n ∧
        ∀ m : Nat, n < m → m < log.length →
          (log.get? m).map LogEntry.term = some currentTerm →
          replicatedCount matchIndex m < majorityOf matchIndex.length) := by
  unfold updateCommitIndex
  cases hscan : commitScan (commitCond log matchIndex currentTerm)
      (commitCandidates log.length commitIndex) with
  | none =>
    left
    refine ⟨rfl, fun n h1 h2 hcond => ?_⟩
    have hfalse := commitScan_eq_none hscan n (mem_commitCandidates.mpr ⟨h2, h1⟩)
    rw [commitCond] at hfalse
    simp only [Bool.and_eq_false_iff, decide_eq_false_iff_not] at hfalse
    rcases hfalse with hf | hf
    · exact hf hcond.1
    · exact hf hcond.2
  | some n =>
    right
    rcases commitScan_eq_some hscan with ⟨hmem, hP⟩
    rcases mem_commitCandidates.mp hmem with ⟨hlt, hci⟩
    rw [commitCond] at hP
    simp only [Bool.and_eq_true, decide_eq_true_eq] at hP
    refine ⟨n, rfl, hci, hlt, hP.1, hP.2, fun m hnm hmlen hterm => ?_⟩
    have hm : m ∈ commitCandidates log.length commitIndex :=
      mem_commitCandidates.mpr ⟨hmlen, by omega⟩
    have := commitScan_max (commitCandidates_pairwise log.length commitIndex) hscan m hm hnm
    rw [commitCond] at this
    simp only [Bool.and_eq_false_iff, decide_eq_false_iff_not] at this
    rcases this with hf | hf
    · exact absurd hterm hf
    · omega


/-- C9: on the leader, `release_lock` for an unlocked resource or for a
client that does not hold the lock returns `success=false` and leaves the
whole lock-manager state (locks, waitQueue, timeouts) unchanged;
`ack_message` for an id not in `in_flight` returns `false` and leaves the
in-flight map and the WAL unchanged. Both are total functions here: no
path raises. -/
theorem C9_stateViolations (st : LMState) (resource clientId : String) (rok : Bool)
    (stq : QueueState) (msgId : String) :
    (st.locks resource = none →
      releaseLock st resource clientId rok = (⟨false, "Lock not found"⟩, st)) ∧
    (∀ l : LockInfo, st.locks resource = some l → clientId ∉ l.holders →
      releaseLock st resource clientId rok =
        (⟨false, "Client does not hold this lock"⟩, st)) ∧
    (stq.inFlight msgId = none → ackMessage stq msgId = (false, stq)) := by
  refine ⟨fun h => ?_, fun l hl hn => ?_, fun h => ?_⟩
  · simp only [releaseLock, h]
  · simp only [releaseLock, hl, if_neg hn]
  · simp only [ackMessage, h]

/-- C9 witness: concrete unlocked release and unknown-id ack. -/
theorem C9_witness :
    releaseLock initLMState "r" "c" true = (⟨false, "Lock not found"⟩, initLMState) ∧
    ackMessage qSt0 "m" = (false, qSt0) :=
  ⟨(C9_stateViolations initLMState "r" "c" true qSt0 "m").1 rfl,
   (C9_stateViolations initLMState "r" "c" true qSt0 "m").2.2 rfl⟩

/-- C10: applying a committed `acquire_lock` whose resource is already in
`locks` adds the client to the holders set but keeps the stored mode and
timestamp; a client that already holds passes the compatibility check with
reason "Client already holds lock"; in particular an Exclusive request by
a client holding in Shared mode passes the check yet the stored mode stays
Shared. -/
theorem C10_acquireFrame (st : LMState) (req : LockRequest) (l : LockInfo)
    (h : st.locks req.resource = some l) :
    (applyLockAcquisition st req).locks req.resource =
      some ⟨l.type, insert req.clientId l.holders, l.timestamp⟩ ∧
    (req.clientId ∈ l.holders →
      canAcquireLock st.locks req.resource req.lockType req.clientId =
        (true, "Client already holds lock")) ∧
    (req.lockType = .exclusive → l.type = .shared → req.clientId ∈ l.holders →
      canAcquireLock st.locks req.resource req.lockType req.clientId =
        (true, "Client already holds lock") ∧
      ((applyLockAcquisition st req).locks req.resource).map LockInfo.type =
        some LockType.shared) := by
  have hlocks : (applyLockAcquisition st req).locks req.resource =
      some ⟨l.type, insert req.clientId l.holders, l.timestamp⟩ := by
    simp [applyLockAcquisition, h]
  have hcheck : req.clientId ∈ l.holders →
      canAcquireLock st.locks req.resource req.lockType req.clientId =
        (true, "Client already holds lock") := by
    intro hc
    simp only [canAcquireLock, h, if_pos hc]
  refine ⟨hlocks, hcheck, fun _ hshared hc => ⟨hcheck hc, ?_⟩⟩
  rw [hlocks, hshared]
  rfl

/-- C10 witness: the Exclusive re-request `req10` against `lmSt10`. -/
theorem C10_witness :
    (applyLockAcquisition lmSt10 req10).locks req10.resource =
      some ⟨LockType.shared, insert "A" ({"A"} : Finset String), 3⟩ ∧
    ("A" ∈ ({"A"} : Finset String) →
      canAcquireLock lmSt10.locks req10.resource req10.lockType req10.clientId =
        (true, "Client already holds lock")) ∧
    (req10.lockType = .exclusive → LockType.shared = .shared →
      "A" ∈ ({"A"} : Finset String) →
      canAcquireLock lmSt10.locks req10.resource req10.lockType req10.clientId =
        (true, "Client already holds lock") ∧
      ((applyLockAcquisition lmSt10 req10).locks req10.resource).map LockInfo.type =
        some LockType.shared) :=
  C10_acquireFrame lmSt10 req10 ⟨.shared, {"A"}, 3⟩ (by decide)

/-- Victim-scan helper: the tracked timestamp never decreases. -/
lemma victimFold_mono (cycle : List String) (l : List LockRequest) :
    ∀ (acc : Option (String × Nat)) (v0 : String) (t0 : Nat) (v : String) (t : Nat),
      acc = some (v0, t0) → l.foldl (victimStep cycle) acc = some (v, t) → t0 ≤ t := by
  induction l with
  | nil =>
    intro acc v0 t0 v t hacc hfold
    simp only [List.foldl_nil] at hfold
    rw [hacc] at hfold
    cases hfold
    exact le_refl _
  | cons w l ih =>
    intro acc v0 t0 v t hacc hfold
    simp only [List.foldl_cons] at hfold
    subst hacc
    by_cases hw : w.clientId ∈ cycle
    · simp only [victimStep, if_pos hw] at hfold
      by_cases hlt : t0 < w.timestamp
      · have := ih (some (w.clientId, w.timestamp)) w.clientId w.timestamp v t rfl
          (by simpa [hlt] using hfold)
        omega
      · exact ih (some (v0, t0)) v0 t0 v t rfl (by simpa [hlt] using hfold)
    · simp only [victimStep, if_neg hw] at hfold
      exact ih (some (v0, t0)) v0 t0 v t rfl hfold

/-- Victim-scan helper: the final timestamp bounds every cycle member's
wait entry. -/
lemma victimFold_bound (cycle : List String) (l : List LockRequest) :
    ∀ (acc : Option (String × Nat)) (v : String) (t : Nat),
      l.foldl (victimStep cycle) acc = some (v, t) →
      ∀ w ∈ l, w.clientId ∈ cycle → w.timestamp ≤ t := by
  induction l with
  | nil => intro acc v t _ w hw; cases hw
  | cons w0 l ih =>
    intro acc v t hfold w hw hcyc
    simp only [List.foldl_cons] at hfold
    rcases List.mem_cons.mp hw with rfl | hwl
    · -- the head entry: after its step the accumulator timestamp is ≥ w.timestamp
      have hstep : ∃ v1 t1, victimStep cycle acc w = some (v1, t1) ∧ w.timestamp ≤ t1 := by
        simp only [victimStep, if_pos hcyc]
        cases acc with
        | none => exact ⟨w.clientId, w.timestamp, rfl, le_refl _⟩
        | some p =>
          rcases p with ⟨v0, t0⟩
          by_cases hlt : t0 < w.timestamp
          · exact ⟨w.clientId, w.timestamp, by simp [hlt], le_refl _⟩
          · exact ⟨v0, t0, by simp [hlt], by omega⟩
      rcases hstep with ⟨v1, t1, hstep, hle⟩
      rw [hstep] at hfold
      have := victimFold_mono cycle l (some (v1, t1)) v1 t1 v t rfl hfold
      omega
    · exact ih (victimStep cycle acc w0) v t hfold w hwl hcyc

/-- Victim-scan helper: a selected victim comes from a wait entry of a
cycle member. -/
lemma victimFold_mem (cycle : List String) (l : List LockRequest) :
    ∀ (acc : Option (String × Nat)) (v : String) (t : Nat),
      l.foldl (victimStep cycle) acc = some (v, t) →
      acc = some (v, t) ∨ ∃ w ∈ l, w.clientId = v ∧ w.timestamp = t ∧ v ∈ cycle := by
  induction l with
  | nil =>
    intro acc v t hfold
    exact Or.inl hfold
  | cons w0 l ih =>
    intro acc v t hfold
    simp only [List.foldl_cons] at hfold
    rcases ih (victimStep cycle acc w0) v t hfold with hacc | ⟨w, hwl, hprop⟩
    · by_cases hw : w0.clientId ∈ cycle
      · simp only [victimStep, if_pos hw] at hacc
        cases hha : acc with
        | none =>
          rw [hha] at hacc
          cases hacc
          exact Or.inr ⟨w0, List.mem_cons_self w0 l, rfl, rfl, hw⟩
        | some p =>
          rcases p with ⟨v0, t0⟩
          rw [hha] at hacc
          by_cases hlt : t0 < w0.timestamp
          · have heq : some (w0.clientId, w0.timestamp) = some (v, t) := by
              simpa [hlt] using hacc
            cases heq
            exact Or.inr ⟨w0, List.mem_cons_self w0 l, rfl, rfl, hw⟩
          · have heq : some (v0, t0) = some (v, t) := by
              simpa [hlt] using hacc
            exact Or.inl heq
      · simp only [victimStep, if_neg hw] at hacc
        exact Or.inl hacc
    · exact Or.inr ⟨w, List.mem_cons_of_mem w0 hwl, hprop⟩

/-- C5 counterexample: on `lmSt5` with cycle `["A", "B"]` the code selects
`"A"` (owner of the overall-latest wait entry, timestamp 10), while the
claim's rule — the client whose *earliest* wait entry has the latest
timestamp — selects `"B"` (earliest entries: A at 1, B at 5). -/
theorem C5_counterexample :
    (resolveDeadlock ["A", "B"] lmSt5).1 = some "A" ∧
    specVictim ["A", "B"] lmSt5.waitQueue = some "B" ∧
    ("A" : String) ≠ "B" := by decide

/-- C5 (amended): `resolve_deadlock` selects as victim the client in the
cycle owning the wait-queue entry with the latest `requestedAt` timestamp
among all entries of cycle members (not the latest of the per-client
earliest entries); it removes all of the victim's wait entries from every
resource's wait queue, clears the victim's incident wait-for edges, and
leaves the locks map unchanged. -/
theorem C5_resolveDeadlock (cycle : List String) (st : LMState) (v : String) (t : Nat)
    (hscan : victimScan cycle st.waitQueue = some (v, t))
    (hc : cycle ≠ []) :
    (resolveDeadlock cycle st).1 = some v ∧
    (resolveDeadlock cycle st).2.locks = st.locks ∧
    (resolveDeadlock cycle st).2.waitQueue =
      st.waitQueue.map (fun p => (p.1, p.2.filter (fun q => q.clientId ≠ v))) ∧
    (∀ p ∈ (resolveDeadlock cycle st).2.waitQueue, ∀ w ∈ p.2, w.clientId ≠ v) ∧
    (resolveDeadlock cycle st).2.lockGraph = removeFromLockGraph st.lockGraph v ∧
    v ∈ cycle ∧
    (∃ w ∈ (st.waitQueue.map Prod.snd).flatten, w.clientId = v ∧ w.timestamp = t) ∧
    (∀ w ∈ (st.waitQueue.map Prod.snd).flatten, w.clientId ∈ cycle → w.timestamp ≤ t) := by
  have hne : ¬ cycle.isEmpty = true := by
    simpa [List.isEmpty_iff] using hc
  have hres : resolveDeadlock cycle st =
      (some v,
       { st with
           waitQueue := st.waitQueue.map
             (fun p => (p.1, p.2.filter (fun q => q.clientId ≠ v))),
           lockGraph := removeFromLockGraph st.lockGraph v }) := by
    simp only [resolveDeadlock, if_neg hne, hscan]
  rcases victimFold_mem cycle ((st.waitQueue.map Prod.snd).flatten) none v t hscan
    with hnone | ⟨w, hwmem, hwc, hwt, hvc⟩
  · cases hnone
  · refine ⟨by rw [hres], by rw [hres], by rw [hres], ?_, by rw [hres], hvc,
      ⟨w, hwmem, hwc, hwt⟩, ?_⟩
    · rw [hres]
      intro p hp w0 hw0
      rcases List.mem_map.mp hp with ⟨q, hq, rfl⟩
      have := List.mem_filter.mp hw0
      simpa using this.2
    · exact victimFold_bound cycle ((st.waitQueue.map Prod.snd).flatten) none v t hscan

/-- C5 witness: resolution on `lmSt5`. -/
theorem C5_witness :
    (resolveDeadlock ["A", "B"] lmSt5).1 = some "A" ∧
    (resolveDeadlock ["A", "B"] lmSt5).2.locks = lmSt5.locks ∧
    (resolveDeadlock ["A", "B"] lmSt5).2.waitQueue =
      lmSt5.waitQueue.map (fun p => (p.1, p.2.filter (fun q => q.clientId ≠ "A"))) ∧
    (∀ p ∈ (resolveDeadlock ["A", "B"] lmSt5).2.waitQueue, ∀ w ∈ p.2, w.clientId ≠ "A") ∧
    (resolveDeadlock ["A", "B"] lmSt5).2.lockGraph =
      removeFromLockGraph lmSt5.lockGraph "A" ∧
    "A" ∈ ["A", "B"] ∧
    (∃ w ∈ (lmSt5.waitQueue.map Prod.snd).flatten, w.clientId = "A" ∧ w.timestamp = 10) ∧
    (∀ w ∈ (lmSt5.waitQueue.map Prod.snd).flatten,
      w.clientId ∈ ["A", "B"] → w.timestamp ≤ 10) :=
  C5_resolveDeadlock ["A", "B"] lmSt5 "A" 10 (by decide) (by decide)

/-- Recovery helper: the replay accumulates exactly the ACKed ids. -/
lemma recoverReplay_acked (w : List WalRecord) :
    ∀ (t : TempQueues) (a : List String),
      (recoverReplay t a w).2 = a ++ ackedIds w := by
  induction w with
  | nil => intro t a; simp [recoverReplay, ackedIds]
  | cons r rest ih =>
    intro t a
    cases r with
    | enqueueRec m => simp only [recoverReplay, ih, ackedIds, List.filterMap_cons]
    | ackRec i =>
      simp only [recoverReplay, ih, ackedIds, List.filterMap_cons]
      simp

/-- Dict-assignment helper: assigning an absent key appends. -/
lemma adUpdate_of_forall_ne {β : Type} (l : List (String × β)) (k : String) (v : β)
    (h : ∀ p ∈ l, p.1 ≠ k) : adUpdate l k v = l ++ [(k, v)] := by
  have hany : l.any (fun p => p.1 = k) = false := by
    rw [List.any_eq_false]
    intro p hp
    simpa using h p hp
  simp [adUpdate, hany]

/-- Dict-assignment helper: updating key `k` leaves lookups of `q ≠ k`
unchanged. -/
lemma find_mapUpdate_ne {β : Type} (l : List (String × β)) (k : String) (v : β)
    (q : String) (hq : q ≠ k) :
    (l.map (fun p => if p.1 = k then (k, v) else p)).find? (fun p => p.1 = q) =
      l.find? (fun p => p.1 = q) := by
  induction l with
  | nil => rfl
  | cons a l ih =>
    by_cases ha : a.1 = k
    · have h1 : (decide ((k, v).1 = q)) = false :=
        decide_eq_false (fun hh => hq hh.symm)
      have h2 : (decide (a.1 = q)) = false :=
        decide_eq_false (fun hh => hq (by rw [← hh]; exact ha))
      simp only [List.map_cons, if_pos ha, List.find?, h1, h2]
      exact ih
    · simp only [List.map_cons, if_neg ha, List.find?]
      cases hd : decide (a.1 = q) with
      | true => rfl
      | false => exact ih

/-- Dict-assignment helper: after an in-place update the key maps to the new
value. -/
lemma find_mapUpdate_self {β : Type} (l : List (String × β)) (k : String) (v : β)
    (hany : l.any (fun p => p.1 = k) = true) :
    (l.map (fun p => if p.1 = k then (k, v) else p)).find? (fun p => p.1 = k) =
      some (k, v) := by
  induction l with
  | nil => simp at hany
  | cons a l ih =>
    by_cases ha : a.1 = k
    · simp only [List.map_cons, if_pos ha, List.find?]
      simp
    · have h2 : decide (a.1 = k) = false := decide_eq_false ha
      simp only [List.map_cons, if_neg ha, List.find?, h2]
      apply ih
      simpa [List.any_cons, h2] using hany

/-- Dict-assignment helper: lookup after `adUpdate`. -/
lemma find_adUpdate {β : Type} (l : List (String × β)) (k : String) (v : β) (q : String) :
    (adUpdate l k v).find? (fun p => p.1 = q) =
      if q = k then some (k, v) else l.find? (fun p => p.1 = q) := by
  by_cases hq : q = k
  · subst hq
    rw [if_pos rfl]
    by_cases hany : l.any (fun p => p.1 = q) = true
    · rw [adUpdate, if_pos hany]
      exact find_mapUpdate_self l q v hany
    · rw [adUpdate, if_neg hany, List.find?_append]
      have hnone : l.find? (fun p => p.1 = q) = none := by
        rw [List.find?_eq_none]
        intro x hx hpx
        exact hany (List.any_eq_true.mpr ⟨x, hx, hpx⟩)
      rw [hnone]
      simp
  · rw [if_neg hq]
    by_cases hany : l.any (fun p => p.1 = k) = true
    · rw [adUpdate, if_pos hany]
      exact find_mapUpdate_ne l k v q hq
    · rw [adUpdate, if_neg hany, List.find?_append]
      have hlast : ([(k, v)] : List (String × β)).find? (fun p => p.1 = q) = none := by
        simp only [List.find?_singleton]
        rw [if_neg]
        simp only [decide_eq_true_eq]
        exact fun hh => hq hh.symm
      rw [hlast]
      cases l.find? (fun p => p.1 = q) <;> rfl

/-- Dict-assignment helper: `adLookup` after `adUpdate`. -/
lemma adLookup_adUpdate {β : Type} (dflt : β) (l : List (String × β)) (k : String)
    (v : β) (q : String) :
    adLookup dflt (adUpdate l k v) q = if q = k then v else adLookup dflt l q := by
  unfold adLookup
  rw [find_adUpdate]
  by_cases hq : q = k <;> simp [hq]

/-- Recovery helper: lookup in the temp table after inserting a message. -/
lemma tempInsert_lookup (t : TempQueues) (m : QMessage) (q : String) :
    adLookup [] (tempInsert t m) q =
      if q = m.queue then adUpdate (adLookup [] t m.queue) m.id m
      else adLookup [] t q := by
  unfold tempInsert
  exact adLookup_adUpdate [] t m.queue (adUpdate (adLookup [] t m.queue) m.id m) q

/-- Recovery helper: with per-queue-distinct ENQUEUE ids, each queue's inner
dict lists that queue's ENQUEUEd messages in encounter order. -/
lemma recoverReplay_inner (w : List WalRecord) :
    ∀ (t : TempQueues) (a : List String),
      (walEnqueues w).Pairwise (fun x y => x.queue = y.queue → x.id ≠ y.id) →
      (∀ m ∈ walEnqueues w, ∀ p ∈ adLookup ([] : List (String × QMessage)) t m.queue,
        p.1 ≠ m.id) →
      ∀ q, adLookup [] (recoverReplay t a w).1 q =
        adLookup [] t q ++
          ((walEnqueues w).filter (fun m => decide (m.queue = q))).map
            (fun m => (m.id, m)) := by
  induction w with
  | nil =>
    intro t a _ _ q
    simp [recoverReplay, walEnqueues]
  | cons r rest ih =>
    intro t a hdist hdisj q
    cases r with
    | ackRec i =>
      simp only [recoverReplay]
      have henq : walEnqueues (WalRecord.ackRec i :: rest) = walEnqueues rest := by
        simp [walEnqueues]
      rw [henq] at hdist hdisj
      rw [ih t (a ++ [i]) hdist hdisj q, henq]
    | enqueueRec m =>
      simp only [recoverReplay]
      have henq : walEnqueues (WalRecord.enqueueRec m :: rest) = m :: walEnqueues rest := by
        simp [walEnqueues]
      rw [henq] at hdist hdisj
      have hmhead : ∀ p ∈ adLookup ([] : List (String × QMessage)) t m.queue, p.1 ≠ m.id :=
        hdisj m (List.mem_cons_self m _)
      have hlk : ∀ q1, adLookup [] (tempInsert t m) q1 =
          if q1 = m.queue then adLookup [] t m.queue ++ [(m.id, m)]
          else adLookup [] t q1 := by
        intro q1
        rw [tempInsert_lookup]
        by_cases h1 : q1 = m.queue
        · rw [if_pos h1, if_pos h1, adUpdate_of_forall_ne _ _ _ hmhead]
        · rw [if_neg h1, if_neg h1]
      have hdisj2 : ∀ m2 ∈ walEnqueues rest,
          ∀ p ∈ adLookup ([] : List (String × QMessage)) (tempInsert t m) m2.queue,
            p.1 ≠ m2.id := by
        intro m2 hm2 p hp
        rw [hlk m2.queue] at hp
        by_cases hq2 : m2.queue = m.queue
        · rw [if_pos hq2] at hp
          rcases List.mem_append.mp hp with hin | hlast
          · exact hdisj m2 (List.mem_cons_of_mem m hm2) p (by rw [hq2]; exact hin)
          · have hpm : p = (m.id, m) := by simpa using hlast
            subst hpm
            exact (List.pairwise_cons.mp hdist).1 m2 hm2 hq2.symm
        · rw [if_neg hq2] at hp
          exact hdisj m2 (List.mem_cons_of_mem m hm2) p hp
      rw [ih (tempInsert t m) a (List.pairwise_cons.mp hdist).2 hdisj2 q, hlk q, henq,
        List.filter_cons]
      by_cases hqm : q = m.queue
      · have : decide (m.queue = q) = true := by simp [hqm]
        rw [if_pos hqm, this, hqm]
        simp [List.append_assoc]
      · have : decide (m.queue = q) = false := by
          simp only [decide_eq_false_iff_not]
          exact fun hh => hqm hh.symm
        rw [if_neg hqm, this]
        simp

/-- C4 counterexample: on `wal4` (two ENQUEUEs of id `"a"` into `"q"`, no
ACKs) recovery yields a single message (the second payload), while the
claim demands both ENQUEUEd messages in encounter order:
`temp_queues[q][id] = msg` overwrites on duplicate ids. -/
theorem C4_counterexample :
    (recoverFromLog (some wal4)).queues "q" = [⟨"a", "q", 2, 0⟩] ∧
    walEnqueues wal4 = [⟨"a", "q", 1, 0⟩, ⟨"a", "q", 2, 0⟩] ∧
    ackedIds wal4 = [] ∧
    ([⟨"a", "q", 2, 0⟩] : List QMessage) ≠ [⟨"a", "q", 1, 0⟩, ⟨"a", "q", 2, 0⟩] := by
  decide

/-- C4 (amended): for every WAL in which no two ENQUEUE records of the same
queue share an id, `recover_from_log` leaves `queues[q]` containing exactly
the messages ENQUEUEd into `q` whose id is not among the ACKed ids, in the
order their ENQUEUE records were encountered, and leaves `in_flight` empty;
a missing WAL file yields the empty state without raising. -/
theorem C4_recovery (w : List WalRecord)
    (hdist : (walEnqueues w).Pairwise (fun x y => x.queue = y.queue → x.id ≠ y.id)) :
    (∀ q, (recoverFromLog (some w)).queues q =
      ((walEnqueues w).filter (fun m => decide (m.queue = q))).filter
        (fun m => decide (m.id ∈ ackedIds w) = false)) ∧
    (∀ i, (recoverFromLog (some w)).inFlight i = none) ∧
    (∀ q, (recoverFromLog none).queues q = []) ∧
    (∀ i, (recoverFromLog none).inFlight i = none) := by
  refine ⟨?_, fun i => rfl, fun q => rfl, fun i => rfl⟩
  intro q
  have hdisj : ∀ m ∈ walEnqueues w,
      ∀ p ∈ adLookup ([] : List (String × QMessage)) ([] : TempQueues) m.queue,
        p.1 ≠ m.id := by
    intro m _ p hp
    simp [adLookup] at hp
  have hinner := recoverReplay_inner w [] [] hdist hdisj q
  have hacked := recoverReplay_acked w [] []
  show ((adLookup [] (recoverReplay [] [] w).1 q).filter
      (fun p => decide (p.1 ∈ (recoverReplay [] [] w).2) = false)).map Prod.snd = _
  have hz : adLookup ([] : List (String × QMessage)) ([] : TempQueues) q = [] := rfl
  rw [hinner, hacked, hz, List.nil_append, List.nil_append, List.filter_map,
    List.map_map]
  simp [Function.comp_def]

/-- C4 witness: recovery of `wal4w` (scenario S4). -/
theorem C4_recovery_witness :
    (∀ q, (recoverFromLog (some wal4w)).queues q =
      ((walEnqueues wal4w).filter (fun m => decide (m.queue = q))).filter
        (fun m => decide (m.id ∈ ackedIds wal4w) = false)) ∧
    (∀ i, (recoverFromLog (some wal4w)).inFlight i = none) ∧
    (∀ q, (recoverFromLog none).queues q = []) ∧
    (∀ i, (recoverFromLog none).inFlight i = none) :=
  C4_recovery wal4w (by decide)

/-- Extending the trace preserves `sharedAdmitted`. -/
lemma sharedAdmitted_append (tr : List LockCmd) (r c : String) (cmd : LockCmd)
    (h : sharedAdmitted tr r c) : sharedAdmitted (tr ++ [cmd]) r c := by
  rcases h with ⟨p, s, req, htr, h1, h2, h3, h4⟩
  exact ⟨p, s ++ [cmd], req, by rw [htr]; simp, h1, h2, h3, h4⟩

/-- C3: in every lock-manager state reachable from the empty state by a
sequence of commands whose acquires passed the leader-side compatibility
check, an Exclusive lock has exactly one holder, and under a Shared lock
every holder made an admitted Shared request for that resource. -/
theorem C3_lockInvariant (tr : List LockCmd) (r : String) (L : LockInfo)
    (h : (lockExec initLMState tr).locks r = some L) :
    (L.type = .exclusive → L.holders.card = 1) ∧
    (L.type = .shared → ∀ c ∈ L.holders, sharedAdmitted tr r c) := by
  induction tr using List.reverseRecOn generalizing r L with
  | nil => exact absurd h (by simp [lockExec, initLMState])
  | append_singleton p cmd ih =>
    rw [lockExec, List.foldl_append, List.foldl_cons, List.foldl_nil] at h
    rw [show List.foldl lockStep initLMState p = lockExec initLMState p from rfl] at h
    cases cmd with
    | release r0 c0 =>
      cases hr0 : (lockExec initLMState p).locks r0 with
      | none =>
        simp only [lockStep, applyLockRelease, hr0] at h
        rcases ih r L h with ⟨he, hs⟩
        exact ⟨he, fun ht c hc => sharedAdmitted_append _ _ _ _ (hs ht c hc)⟩
      | some l =>
        simp only [lockStep, applyLockRelease, hr0] at h
        by_cases hrr : r = r0
        · rw [if_pos hrr] at h
          by_cases hemp : l.holders.erase c0 = ∅
          · rw [if_pos hemp] at h
            exact absurd h (by simp)
          · rw [if_neg hemp] at h
            injection h with h
            subst h
            rcases ih r0 l hr0 with ⟨he, hs⟩
            constructor
            · intro ht
              have hcard := he ht
              have h1 : (l.holders.erase c0).card ≤ l.holders.card :=
                Finset.card_le_card (Finset.erase_subset c0 l.holders)
              have h2 : 0 < (l.holders.erase c0).card :=
                Finset.card_pos.mpr (Finset.nonempty_iff_ne_empty.mpr hemp)
              dsimp only
              omega
            · intro ht c hc
              exact sharedAdmitted_append _ _ _ _
                (hrr ▸ hs ht c (Finset.mem_of_mem_erase hc))
        · rw [if_neg hrr] at h
          rcases ih r L h with ⟨he, hs⟩
          exact ⟨he, fun ht c hc => sharedAdmitted_append _ _ _ _ (hs ht c hc)⟩
    | acquire req =>
      by_cases hca :
          (canAcquireLock (lockExec initLMState p).locks req.resource
            req.lockType req.clientId).1 = true
      · simp only [lockStep, if_pos hca, applyLockAcquisition] at h
        by_cases hrr : r = req.resource
        · rw [if_pos hrr] at h
          cases hres : (lockExec initLMState p).locks req.resource with
          | none =>
            rw [hres] at h
            dsimp only at h
            injection h with h
            subst h
            constructor
            · intro _
              exact Finset.card_singleton req.clientId
            · intro ht c hc
              have hc' : c = req.clientId := Finset.mem_singleton.mp hc
              refine ⟨p, [], req, by simp, hrr.symm, ht, hc'.symm, ?_⟩
              rw [hrr, hc', ← ht]
              exact hca
          | some l =>
            rw [hres] at h
            dsimp only at h
            injection h with h
            subst h
            have hcases : req.clientId ∈ l.holders ∨
                (req.lockType = .shared ∧ l.type = .shared) := by
              by_cases hmem : req.clientId ∈ l.holders
              · exact Or.inl hmem
              · right
                by_cases hcomp : req.lockType = .shared ∧ l.type = .shared
                · exact hcomp
                · exfalso
                  simp only [canAcquireLock, hres, if_neg hmem, if_neg hcomp] at hca
                  exact absurd hca (by simp)
            rcases ih req.resource l hres with ⟨he, hs⟩
            constructor
            · intro ht
              rcases hcases with hmem | ⟨_, hsh⟩
              · rw [Finset.insert_eq_self.mpr hmem]
                exact he ht
              · rw [ht] at hsh
                cases hsh
            · intro ht c hc
              rcases Finset.mem_insert.mp hc with hceq | hcm
              · rcases hcases with hmem | ⟨hshared, _⟩
                · exact sharedAdmitted_append _ _ _ _
                    (hrr ▸ hs ht c (hceq ▸ hmem))
                · refine ⟨p, [], req, by simp, hrr.symm, hshared, hceq.symm, ?_⟩
                  rw [hrr, hceq, ← hshared]
                  exact hca
              · exact sharedAdmitted_append _ _ _ _ (hrr ▸ hs ht c hcm)
        · rw [if_neg hrr] at h
          rcases ih r L h with ⟨he, hs⟩
          exact ⟨he, fun ht c hc => sharedAdmitted_append _ _ _ _ (hs ht c hc)⟩
      · simp only [lockStep, if_neg hca] at h
        rcases ih r L h with ⟨he, hs⟩
        exact ⟨he, fun ht c hc => sharedAdmitted_append _ _ _ _ (hs ht c hc)⟩

/-- C3 witness: the invariant at the state reached by one admitted Shared
acquire. -/
theorem C3_witness :
    ((⟨LockType.shared, {"A"}, 0⟩ : LockInfo).type = .exclusive →
      (⟨LockType.shared, {"A"}, 0⟩ : LockInfo).holders.card = 1) ∧
    ((⟨LockType.shared, {"A"}, 0⟩ : LockInfo).type = .shared →
      ∀ c ∈ (⟨LockType.shared, {"A"}, 0⟩ : LockInfo).holders,
        sharedAdmitted [LockCmd.acquire ⟨"r", .shared, "A", 0, none⟩] "r" c) :=
  C3_lockInvariant [LockCmd.acquire ⟨"r", .shared, "A", 0, none⟩] "r"
    ⟨.shared, {"A"}, 0⟩ (by decide)


end DistSync
